import Mathlib

/-!
Verification of the utility layer of the Heterogeneous-Domain-Generalization
repository (file `code/utils.py`).

The Python source is shallowly embedded as follows.

* Machine floats (learning rates, GPU thresholds, tensor entries) are modelled
  as exact rationals.
* A PyTorch module tree is the mutual inductive `Utils.Module` / `Utils.Subs`:
  a node owns an ordered association list `_parameters` (values are
  `Option Tensor`, `none` standing for a slot whose value is not a tensor) and
  an ordered association list `_modules` of named children.  Python dict keys
  are unique; the predicate `Utils.Module.wfB` records that key lists are
  duplicate free.
* A fully qualified dotted parameter name such as "fc.w" is modelled as the
  list of its components `["fc", "w"]` (the source only ever builds such names
  by joining components with "." and takes them apart with `split`, so the
  component list is an exact model).
* Fallible code returns `Except String`; in-place mutation of the module tree
  becomes explicit state passing of the tree value.
-/

namespace Utils

/-- Boolean success test for `Except`. -/
def exceptOk {ε α : Type} : Except ε α → Bool
  | .ok _ => true
  | .error _ => false

/-- A fully qualified parameter name, as its list of dot-separated components. -/
abbrev QName := List String

/-! ## GPU selection (`get_available_GPUs`, `select_GPUs`, utils.py lines 14-69) -/

/-- One line of `nvidia-smi --query-gpu=index,utilization.gpu,memory.total,memory.used`
as parsed by `get_available_GPUs`: the utilization is the raw percentage figure
(the claims describe the fraction `utilization / 100`). -/
structure GpuRow where
  index : ℤ
  utilization : ℚ
  total : ℚ
  used : ℚ
deriving DecidableEq

/-- The filtering loop of `get_available_GPUs` (utils.py lines 61-65):
keep, in enumeration order, the indices of rows with
`utilization / 100 < max_utilization` and `used / total < max_memory_usage`. -/
def availableIds : List GpuRow → ℚ → ℚ → List ℤ
  | [], _, _ => []
  | r :: rest, maxU, maxM =>
    if r.utilization / 100 < maxU then
      if r.used / r.total < maxM then r.index :: availableIds rest maxU maxM
      else availableIds rest maxU maxM
    else availableIds rest maxU maxM

/-- `get_available_GPUs` (utils.py lines 43-69) over an already parsed device
enumeration: filter, fail if fewer than `N` qualify, else return the first `N`. -/
def get_available_GPUs (rows : List GpuRow) (N : ℕ) (maxU maxM : ℚ) :
    Except String (List ℤ) :=
  let gpu_ids := availableIds rows maxU maxM
  if gpu_ids.length < N then
    Except.error ("Only " ++ toString gpu_ids.length ++ " GPU(s) available but "
      ++ toString N ++ " GPU(s) are required!")
  else Except.ok (gpu_ids.take N)

/-- `select_GPUs` (utils.py lines 14-40).  The collective broadcast is modelled
by every rank reading the same rank-0 enumeration result.  In the distributed
branch the source calls `get_available_GPUs(world_size * N_per_process)` with
its default thresholds, which are `0.5` and `0.5`. -/
def select_GPUs (dist : Bool) (pg_init : Bool) (rank world_size : ℕ)
    (rows : List GpuRow) (N_per_process : ℕ) (maxU maxM : ℚ) :
    Except String (List ℤ) :=
  if !dist then get_available_GPUs rows N_per_process maxU maxM
  else if !pg_init then
    Except.error "please call torch.distributed.init_process_group first"
  else
    match get_available_GPUs rows (world_size * N_per_process) (1/2) (1/2) with
    | .error e => .error e
    | .ok device_ids =>
      Except.ok ((device_ids.drop (N_per_process * rank)).take N_per_process)

/-- The synthetic device enumeration of the spec test
`[(0, 0.1, 100, 10), (1, 0.9, 100, 10), (2, 0.2, 100, 80)]`, with the
utilization fractions written as the raw percentages the source parses. -/
def demoRows : List GpuRow :=
  [⟨0, 10, 100, 10⟩, ⟨1, 90, 100, 10⟩, ⟨2, 20, 100, 80⟩]

/-! ## Learning-rate schedule (`learning_rate`, utils.py lines 259-268) -/

/-- The `optim_factor` computed by `learning_rate` (utils.py lines 260-266). -/
def optim_factor (epoch : ℕ) : ℕ :=
  if epoch > 160 then 3 else if epoch > 120 then 2 else if epoch > 60 then 1 else 0

/-- `learning_rate` (utils.py lines 259-268): `init * 0.2 ** optim_factor`. -/
def learning_rate (init : ℚ) (epoch : ℕ) : ℚ :=
  init * (1/5 : ℚ) ^ optim_factor epoch

/-! ## Label one-hot encoding (`unfold_label`, utils.py lines 235-248) -/

/-- One row of the one-hot matrix: `np.full([classes], 0)` with a `1` written at
position `c`; writing outside the row bounds is an index error. -/
def oneHot (classes : ℕ) (c : ℕ) : Except String (List ℤ) :=
  if c < classes then
    Except.ok ((List.range classes).map (fun i => if i = c then (1 : ℤ) else 0))
  else Except.error "IndexError"

/-- `unfold_label` (utils.py lines 235-248): assert that the number of distinct
labels equals `classes`, subtract the minimum label, and one-hot encode each
label.  `np.min` of an empty array is an error. -/
def unfold_label (labels : List ℤ) (classes : ℕ) : Except String (List (List ℤ)) :=
  if labels.dedup.length = classes then
    match labels with
    | [] => Except.error "ValueError"
    | x :: xs =>
      let mini := xs.foldl min x
      labels.mapM (fun l => oneHot classes (l - mini).toNat)
  else Except.error "AssertionError"

/-! ## The module tree (`torch.nn.Module` as used by `fix_nn` and `Hot_Plug`) -/

/-- A tensor: its numeric value and optionally a populated gradient. -/
structure Tensor where
  val : ℚ
  grad : Option ℚ
deriving DecidableEq

mutual
/-- A module node: its `_parameters` dict and its `_modules` dict, both as
ordered association lists (`none` values stand for non-tensor slots). -/
inductive Module : Type where
  | mk : List (String × Option Tensor) → Subs → Module
/-- The ordered children dict `_modules` of a module. -/
inductive Subs : Type where
  | nil : Subs
  | cons : String → Module → Subs → Subs
end

deriving instance DecidableEq for Module
deriving instance DecidableEq for Subs

/-- Python dict read `_parameters[k]`: value of the first binding of `k`. -/
def getOwn : List (String × Option Tensor) → String → Option (Option Tensor)
  | [], _ => none
  | (k2, v) :: rest, k => if k2 = k then some v else getOwn rest k

/-- Python dict write `_parameters[k] = v`: replace the binding of `k`, or
append a new binding when `k` is absent. -/
def setOwn : List (String × Option Tensor) → String → Tensor →
    List (String × Option Tensor)
  | [], k, v => [(k, some v)]
  | (k2, v2) :: rest, k, v =>
    if k2 = k then (k2, some v) :: rest else (k2, v2) :: setOwn rest k v

/-- Python dict read `_modules[k]`. -/
def Subs.find : Subs → String → Option Module
  | .nil, _ => none
  | .cons k2 m rest, k => if k2 = k then some m else Subs.find rest k

/-- Replace the child named `k` (in-place mutation of a found child becomes a
functional replacement; only reached after a successful `find`). -/
def Subs.set : Subs → String → Module → Subs
  | .nil, _, _ => .nil
  | .cons k2 m rest, k, m2 =>
    if k2 = k then .cons k2 m2 rest else .cons k2 m (Subs.set rest k m2)

/-- The key list of a `_modules` dict. -/
def Subs.keys : Subs → List String
  | .nil => []
  | .cons k _ rest => k :: Subs.keys rest

/-- Resolve a relative dotted path: walk `_modules` along all but the last
component, then read the last component in `_parameters` (the cursor walk of
`Hot_Plug.update`, utils.py lines 113-116).  `none` means a lookup failed. -/
def getParam : Module → QName → Option (Option Tensor)
  | .mk ps _, [k] => getOwn ps k
  | .mk _ subs, k1 :: k2 :: rest =>
    match Subs.find subs k1 with
    | none => none
    | some m => getParam m (k2 :: rest)
  | _, [] => none

/-- The slot write of `Hot_Plug.update` (utils.py lines 113-120): walk
`_modules` along all but the last path component, then assign the last
component in that cursor module's `_parameters`.  A failing `_modules` lookup
is a `KeyError`. -/
def setParam : Module → QName → Tensor → Except String Module
  | .mk ps subs, [k], v => Except.ok (.mk (setOwn ps k v) subs)
  | .mk ps subs, k1 :: k2 :: rest, v =>
    match Subs.find subs k1 with
    | none => Except.error "KeyError"
    | some m =>
      match setParam m (k2 :: rest) v with
      | .error e => .error e
      | .ok m2 => .ok (.mk ps (Subs.set subs k1 m2))
  | _, [], _ => Except.error "IndexError"

mutual
/-- `model.named_parameters()` (utils.py line 109): every tensor parameter of
the tree with its qualified name; a node's own parameters first, then the
children in order, each name extended with the child key. -/
def namedParams : Module → List (QName × Tensor)
  | .mk ps subs =>
    ps.filterMap (fun kv => kv.2.map (fun t => ([kv.1], t))) ++ namedParamsSubs subs
/-- `namedParams` over a children dict. -/
def namedParamsSubs : Subs → List (QName × Tensor)
  | .nil => []
  | .cons k m rest =>
    (namedParams m).map (fun pt => (k :: pt.1, pt.2)) ++ namedParamsSubs rest
end

mutual
/-- Well-formedness that Python dicts guarantee for free: the `_parameters`
and `_modules` key lists of every node are duplicate free. -/
def Module.wfB : Module → Bool
  | .mk ps subs =>
    decide ((ps.map Prod.fst).Nodup) && decide ((Subs.keys subs).Nodup) && Subs.wfB subs
/-- `Module.wfB` for every child. -/
def Subs.wfB : Subs → Bool
  | .nil => true
  | .cons _ m rest => Module.wfB m && Subs.wfB rest
end

/-- The numeric value stored at path `p`, when the slot exists and holds a
tensor. -/
def paramVal (m : Module) (p : QName) : Option ℚ :=
  match getParam m p with
  | some (some t) => some t.val
  | _ => none

/-! ## `Hot_Plug` (utils.py lines 106-123) -/

/-- `Hot_Plug.__init__` captures `OrderedDict(model.named_parameters())` once
(utils.py lines 107-109).  The tree itself is passed explicitly to `update`
and `restore`, since the Python object mutates the model in place. -/
structure Hot_Plug where
  params : List (QName × Tensor)

/-- Construct the helper on a model, snapshotting its named parameters. -/
def Hot_Plug.init (m : Module) : Hot_Plug := ⟨namedParams m⟩

/-- The loop of `Hot_Plug.update` (utils.py lines 111-120): for each snapshot
entry, walk to its cursor module and rebind the slot; with `lr > 0` a fresh
tensor `snapshot - lr * snapshot.grad` is installed (an absent gradient is the
`TypeError` of `lr * None`), otherwise the snapshot tensor itself. -/
def updateLoop : List (QName × Tensor) → ℚ → Module → Except String Module
  | [], _, m => .ok m
  | (p, t) :: rest, lr, m =>
    if lr > 0 then
      match t.grad with
      | none => .error "TypeError"
      | some g =>
        match setParam m p { val := t.val - lr * g, grad := none } with
        | .error e => .error e
        | .ok m2 => updateLoop rest lr m2
    else
      match setParam m p t with
      | .error e => .error e
      | .ok m2 => updateLoop rest lr m2

/-- `Hot_Plug.update` (utils.py lines 111-120). -/
def Hot_Plug.update (hp : Hot_Plug) (lr : ℚ) (m : Module) : Except String Module :=
  updateLoop hp.params lr m

/-- `Hot_Plug.restore` (utils.py lines 122-123): `self.update(lr=0)`. -/
def Hot_Plug.restore (hp : Hot_Plug) (m : Module) : Except String Module :=
  hp.update 0 m

/-- A finite sequence of `update` calls, stopping at the first failure. -/
def runUpdates (hp : Hot_Plug) : List ℚ → Module → Except String Module
  | [], m => .ok m
  | lr :: rest, m =>
    match hp.update lr m with
    | .error e => .error e
    | .ok m2 => runUpdates hp rest m2

/-- Write a list of snapshot entries back verbatim (what the `lr = 0` branch
of the update loop does). -/
def writeAll : List (QName × Tensor) → Module → Except String Module
  | [], m => .ok m
  | (p, t) :: rest, m =>
    match setParam m p t with
    | .error e => .error e
    | .ok m2 => writeAll rest m2

/-- The tensor that `update lr` installs for snapshot entry `t`. -/
def stepVal (lr : ℚ) (t : Tensor) : Tensor :=
  if lr > 0 then { val := t.val - lr * t.grad.getD 0, grad := none } else t

/-! ## `fix_nn` (utils.py lines 88-103) -/

/-- The Python dict read `theta[name]` (`KeyError` when absent is handled at
the call site). -/
def dictLookup : List (QName × Tensor) → QName → Option Tensor
  | [], _ => none
  | (k, t) :: rest, q => if k = q then some t else dictLookup rest q

/-- The parameter loop of `k_param_fn` for a module with no children
(utils.py lines 97-100): slots whose value is not a tensor are skipped; for a
tensor slot the key `name + "." + k` is built (a `TypeError` when `name` is
still `None`, i.e. when the root itself has no children) and the slot is
rebound to `theta` at that key (`KeyError` when absent). -/
def fixParams (theta : List (QName × Tensor)) (name : Option QName) :
    List (String × Option Tensor) → Except String (List (String × Option Tensor))
  | [] => .ok []
  | (k, none) :: rest =>
    match fixParams theta name rest with
    | .error e => .error e
    | .ok r => .ok ((k, none) :: r)
  | (k, some _) :: rest =>
    match name with
    | none => .error "TypeError"
    | some n =>
      match dictLookup theta (n ++ [k]) with
      | none => .error "KeyError"
      | some t =>
        match fixParams theta name rest with
        | .error e => .error e
        | .ok r => .ok ((k, some t) :: r)

/-- The dotted-name extension of `k_param_fn` (utils.py lines 92-95):
`str(k)` when the accumulated name is still `None`, else `name + "." + k`. -/
def childName : Option QName → String → QName
  | none, k => [k]
  | some n, k => n ++ [k]

mutual
/-- `k_param_fn` (utils.py lines 89-100): when the node has children, recurse
into each child with the dotted name extended; otherwise rewrite the node's
`_parameters` from `theta`. -/
def k_param_fn (theta : List (QName × Tensor)) : Option QName → Module → Except String Module
  | name, .mk ps .nil =>
    match fixParams theta name ps with
    | .error e => .error e
    | .ok ps2 => .ok (.mk ps2 .nil)
  | name, .mk ps subs =>
    match k_param_fnSubs theta name subs with
    | .error e => .error e
    | .ok s2 => .ok (.mk ps s2)
/-- The children loop of `k_param_fn` (utils.py lines 91-95). -/
def k_param_fnSubs (theta : List (QName × Tensor)) : Option QName → Subs → Except String Subs
  | _, .nil => .ok .nil
  | name, .cons k m rest =>
    match k_param_fn theta (some (childName name k)) m with
    | .error e => .error e
    | .ok m2 =>
      match k_param_fnSubs theta name rest with
      | .error e => .error e
      | .ok rest2 => .ok (.cons k m2 rest2)
end

/-- `fix_nn` (utils.py lines 88-103), with the source's argument order. -/
def fix_nn (model : Module) (theta : List (QName × Tensor)) : Except String Module :=
  k_param_fn theta none model

mutual
/-- The qualified names `fix_nn` looks up under a node reached by path `pre`:
the tensor parameters of children-free descendants. -/
def leafNames : QName → Module → List QName
  | pre, .mk ps .nil => ps.filterMap (fun kv => kv.2.map (fun _ => pre ++ [kv.1]))
  | pre, .mk _ subs => leafNamesSubs pre subs
/-- `leafNames` over a children dict. -/
def leafNamesSubs : QName → Subs → List QName
  | _, .nil => []
  | pre, .cons k m rest => leafNames (pre ++ [k]) m ++ leafNamesSubs pre rest
end

/-- The qualified names `fix_nn` looks up on a whole model. -/
def fixNnNames : Module → List QName
  | .mk ps .nil => ps.filterMap (fun kv => kv.2.map (fun _ => [kv.1]))
  | .mk _ subs => leafNamesSubs [] subs

mutual
/-- The direct `_parameters` lists of every module that does have children,
keyed by the node's path.  `fix_nn` never touches these. -/
def internalParams : QName → Module → List (QName × List (String × Option Tensor))
  | _, .mk _ .nil => []
  | pre, .mk ps subs => (pre, ps) :: internalParamsSubs pre subs
/-- `internalParams` over a children dict. -/
def internalParamsSubs : QName → Subs → List (QName × List (String × Option Tensor))
  | _, .nil => []
  | pre, .cons k m rest => internalParams (pre ++ [k]) m ++ internalParamsSubs pre rest
end

/-! ## Concrete example trees used by witnesses and counterexamples -/

/-- A root holding one child "fc" that owns one tensor slot "w" of value 5. -/
def exM : Module := .mk [] (.cons "fc" (.mk [("w", some ⟨5, none⟩)] .nil) .nil)

/-- `exM` with the "fc.w" slot rebound to the tensor of value 7. -/
def exMFixed : Module := .mk [] (.cons "fc" (.mk [("w", some ⟨7, none⟩)] .nil) .nil)

/-- An override map for `exM` carrying one extra key "extra". -/
def exTheta2 : List (QName × Tensor) :=
  [(["fc", "w"], ⟨7, none⟩), (["extra"], ⟨9, none⟩)]

/-- A single-node model owning one tensor slot "w" of value 2 and gradient 3. -/
def exG : Module := .mk [("w", some ⟨2, some 3⟩)] .nil

/-! # Theorems -/

/-! ## Generic helper lemmas -/

theorem exceptOk_iff {ε α : Type} (e : Except ε α) :
    exceptOk e = true ↔ ∃ a, e = .ok a := by
  cases e <;> simp [exceptOk]

/-! ## GPU selection -/

theorem availableIds_eq_filter (rows : List GpuRow) (maxU maxM : ℚ) :
    availableIds rows maxU maxM =
      (rows.filter (fun r =>
        decide (r.utilization / 100 < maxU) && decide (r.used / r.total < maxM))).map
        GpuRow.index := by
  induction rows with
  | nil => rfl
  | cons r rest ih =>
    by_cases h1 : r.utilization / 100 < maxU
    · by_cases h2 : r.used / r.total < maxM
      · simp [availableIds, h1, h2, ih, List.filter]
      · simp [availableIds, h1, h2, ih, List.filter]
    · simp [availableIds, h1, ih, List.filter]

/-! ## `fix_nn` helper lemmas -/

theorem fixParams_isOk_iff (theta : List (QName × Tensor)) (n : QName)
    (ps : List (String × Option Tensor)) :
    exceptOk (fixParams theta (some n) ps) = true ↔
      ∀ q ∈ ps.filterMap (fun kv => kv.2.map (fun _ => n ++ [kv.1])),
        (dictLookup theta q).isSome = true := by
  induction ps with
  | nil => simp [fixParams, exceptOk]
  | cons kv rest ih =>
    obtain ⟨k, v⟩ := kv
    cases v with
    | none =>
      have he : exceptOk (fixParams theta (some n) ((k, none) :: rest))
          = exceptOk (fixParams theta (some n) rest) := by
        cases h : fixParams theta (some n) rest <;> simp [fixParams, h, exceptOk]
      rw [he, ih]
      simp [List.filterMap_cons]
    | some t0 =>
      cases hl : dictLookup theta (n ++ [k]) with
      | none =>
        have hL : exceptOk (fixParams theta (some n) ((k, some t0) :: rest)) = false := by
          simp [fixParams, hl, exceptOk]
        refine iff_of_false (by simp [hL]) ?_
        intro hall
        have hmem : n ++ [k] ∈
            ((k, some t0) :: rest).filterMap (fun kv => kv.2.map (fun _ => n ++ [kv.1])) := by
          simp [List.filterMap_cons]
        have := hall (n ++ [k]) hmem
        rw [hl] at this
        simp at this
      | some t =>
        have he : exceptOk (fixParams theta (some n) ((k, some t0) :: rest))
            = exceptOk (fixParams theta (some n) rest) := by
          cases h : fixParams theta (some n) rest <;> simp [fixParams, h, hl, exceptOk]
        rw [he, ih]
        constructor
        · intro hall q hq
          simp only [List.filterMap_cons, Option.map_some] at hq
          rcases List.mem_cons.mp hq with rfl | hq
          · simp [hl]
          · exact hall q hq
        · intro hall q hq
          refine hall q ?_
          simp only [List.filterMap_cons, Option.map_some]
          exact List.mem_cons_of_mem _ hq

mutual
theorem k_param_fn_isOk_iff (theta : List (QName × Tensor)) :
    ∀ (n : QName) (m : Module), exceptOk (k_param_fn theta (some n) m) = true ↔
      ∀ q ∈ leafNames n m, (dictLookup theta q).isSome = true
  | n, .mk ps .nil => by
    have he : exceptOk (k_param_fn theta (some n) (.mk ps .nil))
        = exceptOk (fixParams theta (some n) ps) := by
      cases h : fixParams theta (some n) ps <;> simp [k_param_fn, h, exceptOk]
    rw [he, fixParams_isOk_iff]
    exact Iff.rfl
  | n, .mk ps (.cons k m rest) => by
    have he : exceptOk (k_param_fn theta (some n) (.mk ps (.cons k m rest)))
        = exceptOk (k_param_fnSubs theta (some n) (.cons k m rest)) := by
      cases h : k_param_fnSubs theta (some n) (.cons k m rest) <;>
        simp [k_param_fn, h, exceptOk]
    rw [he, k_param_fnSubs_isOk_iff theta n (.cons k m rest)]
    exact Iff.rfl
theorem k_param_fnSubs_isOk_iff (theta : List (QName × Tensor)) :
    ∀ (n : QName) (s : Subs), exceptOk (k_param_fnSubs theta (some n) s) = true ↔
      ∀ q ∈ leafNamesSubs n s, (dictLookup theta q).isSome = true
  | n, .nil => by simp [k_param_fnSubs, exceptOk, leafNamesSubs]
  | n, .cons k m rest => by
    have hm := k_param_fn_isOk_iff theta (n ++ [k]) m
    have hr := k_param_fnSubs_isOk_iff theta n rest
    have he : exceptOk (k_param_fnSubs theta (some n) (.cons k m rest))
        = (exceptOk (k_param_fn theta (some (n ++ [k])) m)
            && exceptOk (k_param_fnSubs theta (some n) rest)) := by
      cases h1 : k_param_fn theta (some (n ++ [k])) m with
      | error e => simp [k_param_fnSubs, childName, h1, exceptOk]
      | ok m2 =>
        cases h2 : k_param_fnSubs theta (some n) rest with
        | error e => simp [k_param_fnSubs, childName, h1, h2, exceptOk]
        | ok rest2 => simp [k_param_fnSubs, childName, h1, h2, exceptOk]
    rw [he, Bool.and_eq_true, hm, hr]
    simp only [leafNamesSubs]
    constructor
    · rintro ⟨ha, hb⟩ q hq
      rcases List.mem_append.mp hq with hq | hq
      · exact ha q hq
      · exact hb q hq
    · intro h
      exact ⟨fun q hq => h q (List.mem_append.mpr (Or.inl hq)),
             fun q hq => h q (List.mem_append.mpr (Or.inr hq))⟩
end

theorem k_param_fnSubs_none_eq (theta : List (QName × Tensor)) :
    ∀ s : Subs, k_param_fnSubs theta none s = k_param_fnSubs theta (some []) s
  | .nil => rfl
  | .cons k m rest => by
    simp only [k_param_fnSubs, k_param_fnSubs_none_eq theta rest, childName,
      List.nil_append]

theorem fixParams_none_fails (theta : List (QName × Tensor)) :
    ∀ ps : List (String × Option Tensor), (∃ kv ∈ ps, (kv.2).isSome = true) →
      exceptOk (fixParams theta none ps) = false
  | [], h => by simp at h
  | (k, none) :: rest, h => by
    have hr : ∃ kv ∈ rest, (kv.2).isSome = true := by
      obtain ⟨kv, hkv, hs⟩ := h
      cases hkv with
      | head => simp at hs
      | tail _ hkv => exact ⟨kv, hkv, hs⟩
    cases hfix : fixParams theta none rest with
    | error e => simp [fixParams, hfix, exceptOk]
    | ok r =>
      have := fixParams_none_fails theta rest hr
      simp [hfix, exceptOk] at this
  | (k, some t) :: rest, h => by
    simp [fixParams, exceptOk]

/-! ## Claim C2 -/

/-- C2 counterexample: the tree `exM` has exactly one leaf name "fc.w"; with an
empty external map (the name is absent) `fix_nn` does not leave the leaf
unchanged but fails with a `KeyError`, refuting the permissive-default claim. -/
theorem fix_nn_permissive_cex :
    fixNnNames exM = [["fc", "w"]]
    ∧ dictLookup [] ["fc", "w"] = none
    ∧ fix_nn exM [] = Except.error "KeyError" :=
  ⟨rfl, rfl, rfl⟩

/-- C2 amended: `fix_nn` is not permissive on real leaves: whenever the
fully-qualified name of a tensor parameter owned by a children-free module is
absent from the external map, `fix_nn` fails (it raises rather than leaving
the leaf at its stored value); only non-tensor slots and parameters of modules
with children are skipped without consulting the map. -/
theorem fix_nn_missing_leaf_fails (theta : List (QName × Tensor)) (m : Module)
    (q : QName) (hq : q ∈ fixNnNames m) (habs : dictLookup theta q = none) :
    exceptOk (fix_nn m theta) = false := by
  obtain ⟨ps, subs⟩ := m
  cases subs with
  | nil =>
    have hx : ∃ kv ∈ ps, (kv.2).isSome = true := by
      simp only [fixNnNames, List.mem_filterMap] at hq
      obtain ⟨kv, hkv, hmap⟩ := hq
      cases hv : kv.2 with
      | none => rw [hv] at hmap; simp at hmap
      | some t => exact ⟨kv, hkv, by rw [hv]; rfl⟩
    have hfail := fixParams_none_fails theta ps hx
    cases hfix : fixParams theta none ps with
    | error e => simp [fix_nn, k_param_fn, hfix, exceptOk]
    | ok ps2 => simp [hfix, exceptOk] at hfail
  | cons k m0 rest =>
    cases hok : exceptOk (fix_nn (.mk ps (.cons k m0 rest)) theta) with
    | false => rfl
    | true =>
      have hiff := k_param_fnSubs_isOk_iff theta [] (.cons k m0 rest)
      have hok2 : exceptOk (k_param_fnSubs theta (some []) (.cons k m0 rest)) = true := by
        rw [← k_param_fnSubs_none_eq]
        cases h2 : k_param_fnSubs theta none (.cons k m0 rest) with
        | error e => simp [fix_nn, k_param_fn, h2, exceptOk] at hok
        | ok s2 => rfl
      have hall := hiff.mp hok2
      have := hall q (by simpa [fixNnNames] using hq)
      rw [habs] at this
      simp at this

/-- C2 amended, witness. -/
theorem fix_nn_missing_leaf_fails_witness :
    exceptOk (fix_nn exM []) = false :=
  fix_nn_missing_leaf_fails [] exM ["fc", "w"] (by decide) rfl

/-! ## Claim C3 -/

/-- C3 counterexample: on `exM` (leaf names exactly `["fc.w"]`) an external map
with the extra key "extra", which names no tree leaf, does not make `fix_nn`
fail: the override succeeds and the extra key is silently ignored. -/
theorem fix_nn_extra_key_ok_cex :
    fix_nn exM exTheta2 = Except.ok exMFixed
    ∧ ["extra"] ∈ exTheta2.map Prod.fst
    ∧ ["extra"] ∉ fixNnNames exM :=
  ⟨rfl, by decide, by decide⟩

/-- C3 amended: for a model whose root has at least one child, `fix_nn`
succeeds if and only if every fully-qualified name of a tensor parameter of a
children-free module is present in the external map; absent tree-side names
make it fail, while map keys naming no tree leaf are ignored (no key-set
equality is required). -/
theorem fix_nn_isOk_iff (theta : List (QName × Tensor))
    (ps : List (String × Option Tensor)) (k : String) (m : Module) (rest : Subs) :
    exceptOk (fix_nn (.mk ps (.cons k m rest)) theta) = true ↔
      ∀ q ∈ fixNnNames (.mk ps (.cons k m rest)), (dictLookup theta q).isSome = true := by
  have hiff := k_param_fnSubs_isOk_iff theta [] (.cons k m rest)
  have hunf : exceptOk (fix_nn (.mk ps (.cons k m rest)) theta)
      = exceptOk (k_param_fnSubs theta (some []) (.cons k m rest)) := by
    rw [← k_param_fnSubs_none_eq]
    cases h2 : k_param_fnSubs theta none (.cons k m rest) with
    | error e => simp [fix_nn, k_param_fn, h2, exceptOk]
    | ok s2 => simp [fix_nn, k_param_fn, h2, exceptOk]
  rw [hunf]
  simpa [fixNnNames] using hiff

/-! ## Claim C10 -/

mutual
theorem k_param_fn_internal (theta : List (QName × Tensor)) :
    ∀ (name : Option QName) (pre : QName) (m m2 : Module),
      k_param_fn theta name m = .ok m2 → internalParams pre m2 = internalParams pre m
  | name, pre, .mk ps .nil, m2, h => by
    cases hfix : fixParams theta name ps with
    | error e => simp [k_param_fn, hfix] at h
    | ok ps2 =>
      simp [k_param_fn, hfix] at h
      subst h
      simp [internalParams]
  | name, pre, .mk ps (.cons k m0 rest), m2, h => by
    cases hs : k_param_fnSubs theta name (.cons k m0 rest) with
    | error e => simp [k_param_fn, hs] at h
    | ok s2 =>
      simp [k_param_fn, hs] at h
      subst h
      cases h1 : k_param_fn theta (some (childName name k)) m0 with
      | error e => simp [k_param_fnSubs, h1] at hs
      | ok m02 =>
        cases h2 : k_param_fnSubs theta name rest with
        | error e => simp [k_param_fnSubs, h1, h2] at hs
        | ok rest2 =>
          simp [k_param_fnSubs, h1, h2] at hs
          subst hs
          have e1 := k_param_fn_internal theta
            (some (childName name k)) (pre ++ [k]) m0 m02 h1
          have e2 := k_param_fnSubs_internal theta name pre rest rest2 h2
          simp [internalParams, internalParamsSubs, e1, e2]
theorem k_param_fnSubs_internal (theta : List (QName × Tensor)) :
    ∀ (name : Option QName) (pre : QName) (s s2 : Subs),
      k_param_fnSubs theta name s = .ok s2 →
        internalParamsSubs pre s2 = internalParamsSubs pre s
  | name, pre, .nil, s2, h => by
    simp [k_param_fnSubs] at h
    subst h
    rfl
  | name, pre, .cons k m0 rest, s2, h => by
    cases h1 : k_param_fn theta (some (childName name k)) m0 with
    | error e => simp [k_param_fnSubs, h1] at h
    | ok m02 =>
      cases h2 : k_param_fnSubs theta name rest with
      | error e => simp [k_param_fnSubs, h1, h2] at h
      | ok rest2 =>
        simp [k_param_fnSubs, h1, h2] at h
        subst h
        have e1 := k_param_fn_internal theta
          (some (childName name k)) (pre ++ [k]) m0 m02 h1
        have e2 := k_param_fnSubs_internal theta name pre rest rest2 h2
        simp [internalParamsSubs, e1, e2]
end

/-- C10: `fix_nn` rebinds only parameters owned by children-free modules: for
every module node that has at least one child, every parameter owned directly
by that node is left unchanged, regardless of the contents of `theta`. -/
theorem fix_nn_internal_params_unchanged (theta : List (QName × Tensor))
    (m m2 : Module) (h : fix_nn m theta = .ok m2) :
    internalParams [] m2 = internalParams [] m :=
  k_param_fn_internal theta none [] m m2 h

/-- C10 witness. -/
theorem fix_nn_internal_params_unchanged_witness :
    internalParams [] exMFixed = internalParams [] exM :=
  fix_nn_internal_params_unchanged [(["fc", "w"], ⟨7, none⟩)] exM exMFixed rfl

/-! ## Claims C5, C7, C8, C9 -/

/-- C5: GPU selection filters the enumerated device rows to those with
utilization fraction strictly below `max_utilization` and memory ratio strictly
below `max_memory_usage`, keeps enumeration order, returns the first `N`
qualifying indices, and raises an insufficient-resources error when fewer than
`N` qualify; on the spec rows (utilization fractions 0.1, 0.9, 0.2 written as
percentages 10, 90, 20) with both thresholds 0.5, `N = 1` returns `[0]` and
`N = 2` raises. -/
theorem get_available_GPUs_spec :
    (∀ (rows : List GpuRow) (N : ℕ) (maxU maxM : ℚ),
      get_available_GPUs rows N maxU maxM =
        (let ids := (rows.filter (fun r =>
            decide (r.utilization / 100 < maxU) && decide (r.used / r.total < maxM))).map
            GpuRow.index
         if ids.length < N then
           Except.error ("Only " ++ toString ids.length ++ " GPU(s) available but "
             ++ toString N ++ " GPU(s) are required!")
         else Except.ok (ids.take N)))
    ∧ get_available_GPUs demoRows 1 (1/2) (1/2) = Except.ok [0]
    ∧ exceptOk (get_available_GPUs demoRows 2 (1/2) (1/2)) = false := by
  refine ⟨fun rows N maxU maxM => ?_, ?_, ?_⟩
  · simp only [get_available_GPUs, availableIds_eq_filter]
  · have h : availableIds demoRows (1/2) (1/2) = [0] := by
      norm_num [demoRows, availableIds]
    simp only [get_available_GPUs, h]
    rfl
  · have h : availableIds demoRows (1/2) (1/2) = [0] := by
      norm_num [demoRows, availableIds]
    simp only [get_available_GPUs, h]
    rfl

/-- C8: `learning_rate 0.1 epoch` is `0.1` for `epoch ≤ 60`, `0.02` for
`60 < epoch ≤ 120`, `0.004` for `120 < epoch ≤ 160` and `0.0008` afterwards
(the exact rationals `1/10`, `1/50`, `1/250`, `1/1250`). -/
theorem learning_rate_schedule (epoch : ℕ) :
    learning_rate (1/10) epoch =
      if epoch ≤ 60 then (1/10 : ℚ)
      else if epoch ≤ 120 then 1/50
      else if epoch ≤ 160 then 1/250
      else 1/1250 := by
  by_cases h1 : epoch > 160
  · have hf : optim_factor epoch = 3 := by simp [optim_factor, h1]
    rw [learning_rate, hf, if_neg (by omega), if_neg (by omega), if_neg (by omega)]
    norm_num
  · by_cases h2 : epoch > 120
    · have hf : optim_factor epoch = 2 := by simp [optim_factor, h1, h2]
      rw [learning_rate, hf, if_neg (by omega), if_neg (by omega), if_pos (by omega)]
      norm_num
    · by_cases h3 : epoch > 60
      · have hf : optim_factor epoch = 1 := by simp [optim_factor, h1, h2, h3]
        rw [learning_rate, hf, if_neg (by omega), if_pos (by omega)]
        norm_num
      · have hf : optim_factor epoch = 0 := by simp [optim_factor, h1, h2, h3]
        rw [learning_rate, hf, if_pos (by omega)]
        norm_num

/-- C7 counterexample: `unfold_label [5, 6, 7] 3` does not raise; the assert
`len(np.unique(labels)) == classes` holds (3 distinct labels), the minimum
label 5 is subtracted, and the 3 by 3 identity matrix is returned. -/
theorem unfold_label_offset_cex :
    unfold_label [5, 6, 7] 3 = Except.ok [[1, 0, 0], [0, 1, 0], [0, 0, 1]] := by
  rfl

/-- C7 amended: `unfold_label [5, 6, 7] 3` returns the 3 by 3 identity matrix
(labels are shifted down by their minimum before one-hot encoding), just as
`unfold_label [0, 1, 2] 3` does; an inconsistent-class-count error is raised
exactly on inputs whose number of distinct labels differs from `classes`. -/
theorem unfold_label_spec :
    unfold_label [5, 6, 7] 3 = Except.ok [[1, 0, 0], [0, 1, 0], [0, 0, 1]]
    ∧ unfold_label [0, 1, 2] 3 = Except.ok [[1, 0, 0], [0, 1, 0], [0, 0, 1]]
    ∧ (∀ (labels : List ℤ) (classes : ℕ), labels.dedup.length ≠ classes →
        unfold_label labels classes = Except.error "AssertionError") := by
  refine ⟨rfl, rfl, fun labels classes h => ?_⟩
  simp [unfold_label, h]

/-- C7 amended, witness: the assertion really fires on a concrete input with
two distinct labels but three requested classes. -/
theorem unfold_label_spec_witness :
    unfold_label [0, 0, 1] 3 = Except.error "AssertionError" :=
  unfold_label_spec.2.2 [0, 0, 1] 3 (by decide)

/-- C9: in distributed mode the result of `select_GPUs` does not depend on its
`max_utilization` and `max_memory_usage` arguments, because rank 0 enumerates
devices with the fixed default thresholds 0.5 and 0.5. -/
theorem select_GPUs_dist_thresholds_independent
    (pg : Bool) (rank world_size : ℕ) (rows : List GpuRow) (Nproc : ℕ)
    (mU mM mU2 mM2 : ℚ) :
    select_GPUs true pg rank world_size rows Nproc mU mM
      = select_GPUs true pg rank world_size rows Nproc mU2 mM2 := by
  simp [select_GPUs]

/-! ## Dictionary-level lemmas for `Hot_Plug` -/

theorem getOwn_setOwn_self :
    ∀ (ps : List (String × Option Tensor)) (k : String) (v : Tensor),
      getOwn (setOwn ps k v) k = some (some v)
  | [], k, v => by simp [setOwn, getOwn]
  | (k2, v2) :: rest, k, v => by
    by_cases h : k2 = k
    · simp [setOwn, getOwn, h]
    · simp [setOwn, getOwn, h, getOwn_setOwn_self rest k v]

theorem getOwn_setOwn_ne :
    ∀ (ps : List (String × Option Tensor)) (k k2 : String) (v : Tensor),
      k2 ≠ k → getOwn (setOwn ps k v) k2 = getOwn ps k2
  | [], k, k2, v, hne => by simp [setOwn, getOwn, Ne.symm hne]
  | (k3, v3) :: rest, k, k2, v, hne => by
    by_cases h : k3 = k
    · subst h
      have h21 : ¬ k3 = k2 := fun h2 => hne h2.symm
      simp [setOwn, getOwn, h21]
    · by_cases h2 : k3 = k2
      · subst h2
        simp [setOwn, getOwn, h]
      · simp [setOwn, getOwn, h, h2, getOwn_setOwn_ne rest k k2 v hne]

theorem setOwn_id :
    ∀ (ps : List (String × Option Tensor)) (k : String) (v : Tensor),
      getOwn ps k = some (some v) → setOwn ps k v = ps
  | [], k, v, h => by simp [getOwn] at h
  | (k2, v2) :: rest, k, v, h => by
    by_cases hk : k2 = k
    · subst hk
      simp [getOwn] at h
      simp [setOwn, h]
    · simp [getOwn, hk] at h
      simp [setOwn, hk, setOwn_id rest k v h]

theorem setOwn_absorb :
    ∀ (ps : List (String × Option Tensor)) (k : String) (v w : Tensor),
      setOwn (setOwn ps k v) k w = setOwn ps k w
  | [], k, v, w => by simp [setOwn]
  | (k2, v2) :: rest, k, v, w => by
    by_cases h : k2 = k
    · simp [setOwn, h]
    · simp [setOwn, h, setOwn_absorb rest k v w]

theorem setOwn_comm :
    ∀ (ps : List (String × Option Tensor)) (k k2 : String) (v w : Tensor),
      k ≠ k2 → getOwn ps k ≠ none → getOwn ps k2 ≠ none →
      setOwn (setOwn ps k v) k2 w = setOwn (setOwn ps k2 w) k v
  | [], k, k2, v, w, hne, hk, hk2 => by simp [getOwn] at hk
  | (k3, v3) :: rest, k, k2, v, w, hne, hk, hk2 => by
    by_cases h : k3 = k
    · subst h
      have h21 : ¬ k3 = k2 := hne
      simp [setOwn, h21]
    · by_cases h2 : k3 = k2
      · subst h2
        simp [setOwn, h]
      · simp [getOwn, h, h2] at hk hk2
        simp [setOwn, h, h2, setOwn_comm rest k k2 v w hne hk hk2]

theorem Subs.find_set_self :
    ∀ (s : Subs) (k : String) (m m2 : Module),
      Subs.find s k = some m → Subs.find (Subs.set s k m2) k = some m2
  | .nil, k, m, m2, h => by simp [Subs.find] at h
  | .cons k3 m3 rest, k, m, m2, h => by
    by_cases hk : k3 = k
    · simp [Subs.set, Subs.find, hk]
    · simp [Subs.find, hk] at h
      simp [Subs.set, Subs.find, hk, Subs.find_set_self rest k m m2 h]

theorem Subs.find_set_ne :
    ∀ (s : Subs) (k k2 : String) (m2 : Module),
      k2 ≠ k → Subs.find (Subs.set s k m2) k2 = Subs.find s k2
  | .nil, k, k2, m2, hne => by simp [Subs.set]
  | .cons k3 m3 rest, k, k2, m2, hne => by
    by_cases h : k3 = k
    · subst h
      have h21 : ¬ k3 = k2 := fun h2 => hne h2.symm
      simp [Subs.set, Subs.find, h21]
    · by_cases h2 : k3 = k2
      · subst h2
        simp [Subs.set, Subs.find, h]
      · simp [Subs.set, Subs.find, h, h2, Subs.find_set_ne rest k k2 m2 hne]

theorem Subs.set_id :
    ∀ (s : Subs) (k : String) (m : Module),
      Subs.find s k = some m → Subs.set s k m = s
  | .nil, k, m, h => by simp [Subs.find] at h
  | .cons k3 m3 rest, k, m, h => by
    by_cases hk : k3 = k
    · subst hk
      simp [Subs.find] at h
      simp [Subs.set, h]
    · simp [Subs.find, hk] at h
      simp [Subs.set, hk, Subs.set_id rest k m h]

theorem Subs.set_absorb :
    ∀ (s : Subs) (k : String) (a b : Module),
      Subs.set (Subs.set s k a) k b = Subs.set s k b
  | .nil, k, a, b => by simp [Subs.set]
  | .cons k3 m3 rest, k, a, b => by
    by_cases h : k3 = k
    · simp [Subs.set, h]
    · simp [Subs.set, h, Subs.set_absorb rest k a b]

theorem Subs.set_comm :
    ∀ (s : Subs) (k k2 : String) (a b : Module),
      k ≠ k2 → Subs.set (Subs.set s k a) k2 b = Subs.set (Subs.set s k2 b) k a
  | .nil, k, k2, a, b, hne => by simp [Subs.set]
  | .cons k3 m3 rest, k, k2, a, b, hne => by
    by_cases h : k3 = k
    · subst h
      have h21 : ¬ k3 = k2 := hne
      simp [Subs.set, h21]
    · by_cases h2 : k3 = k2
      · subst h2
        simp [Subs.set, h]
      · simp [Subs.set, h, h2, Subs.set_comm rest k k2 a b hne]

theorem Subs.find_mem_keys :
    ∀ (s : Subs) (k : String) (m : Module),
      Subs.find s k = some m → k ∈ Subs.keys s
  | .nil, k, m, h => by simp [Subs.find] at h
  | .cons k3 m3 rest, k, m, h => by
    by_cases hk : k3 = k
    · simp [Subs.keys, hk]
    · simp [Subs.find, hk] at h
      simp [Subs.keys, Subs.find_mem_keys rest k m h]

theorem Subs.wfB_find :
    ∀ (s : Subs) (k : String) (m : Module),
      Subs.wfB s = true → Subs.find s k = some m → Module.wfB m = true
  | .nil, k, m, hwf, h => by simp [Subs.find] at h
  | .cons k3 m3 rest, k, m, hwf, h => by
    rw [Subs.wfB, Bool.and_eq_true] at hwf
    by_cases hk : k3 = k
    · simp [Subs.find, hk] at h
      exact h ▸ hwf.1
    · simp [Subs.find, hk] at h
      exact Subs.wfB_find rest k m hwf.2 h

theorem getOwn_of_mem :
    ∀ (ps : List (String × Option Tensor)) (k : String) (t : Tensor),
      (ps.map Prod.fst).Nodup → (k, some t) ∈ ps → getOwn ps k = some (some t)
  | [], k, t, hnd, hmem => by simp at hmem
  | (k2, v2) :: rest, k, t, hnd, hmem => by
    rcases List.mem_cons.mp hmem with heq | hmem2
    · obtain ⟨rfl, rfl⟩ : k2 = k ∧ v2 = some t := by
        exact ⟨congrArg Prod.fst heq.symm, congrArg Prod.snd heq.symm⟩
      simp [getOwn]
    · have hk2 : k2 ≠ k := by
        simp only [List.map_cons, List.nodup_cons] at hnd
        intro h
        exact hnd.1 (h ▸ List.mem_map_of_mem Prod.fst hmem2)
      simp only [List.map_cons, List.nodup_cons] at hnd
      simp [getOwn, hk2, getOwn_of_mem rest k t hnd.2 hmem2]

/-! ## Path-level lemmas for `setParam` and `getParam` -/

theorem getParam_setParam_self :
    ∀ (m : Module) (p : QName) (v : Tensor) (m2 : Module),
      setParam m p v = .ok m2 → getParam m2 p = some (some v)
  | .mk ps subs, [], v, m2, h => by simp [setParam] at h
  | .mk ps subs, [k], v, m2, h => by
    simp [setParam] at h
    subst h
    simp [getParam, getOwn_setOwn_self]
  | .mk ps subs, k1 :: k2 :: rest, v, m2, h => by
    cases hf : Subs.find subs k1 with
    | none => simp [setParam, hf] at h
    | some m0 =>
      cases hset : setParam m0 (k2 :: rest) v with
      | error e => simp [setParam, hf, hset] at h
      | ok m02 =>
        simp [setParam, hf, hset] at h
        subst h
        have ih := getParam_setParam_self m0 (k2 :: rest) v m02 hset
        simp [getParam, Subs.find_set_self subs k1 m0 m02 hf, ih]

theorem getParam_setParam_ne :
    ∀ (m : Module) (p q : QName) (v : Tensor) (m2 : Module),
      setParam m p v = .ok m2 → q ≠ p → getParam m2 q = getParam m q
  | .mk ps subs, [], q, v, m2, h, hne => by simp [setParam] at h
  | .mk ps subs, [k], q, v, m2, h, hne => by
    simp [setParam] at h
    subst h
    match q with
    | [] => simp [getParam]
    | [kq] =>
      have hkq : kq ≠ k := fun h2 => hne (by rw [h2])
      simp [getParam, getOwn_setOwn_ne ps k kq v hkq]
    | kq :: q2 :: qrest => simp [getParam]
  | .mk ps subs, k1 :: k2 :: rest, q, v, m2, h, hne => by
    cases hf : Subs.find subs k1 with
    | none => simp [setParam, hf] at h
    | some m0 =>
      cases hset : setParam m0 (k2 :: rest) v with
      | error e => simp [setParam, hf, hset] at h
      | ok m02 =>
        simp [setParam, hf, hset] at h
        subst h
        match q with
        | [] => simp [getParam]
        | [kq] => simp [getParam]
        | kq :: q2 :: qrest =>
          by_cases hk : kq = k1
          · subst hk
            have hq2 : (q2 :: qrest) ≠ (k2 :: rest) := fun h2 => hne (by rw [h2])
            have ih := getParam_setParam_ne m0 (k2 :: rest) (q2 :: qrest) v m02 hset hq2
            simp [getParam, Subs.find_set_self subs kq m0 m02 hf, hf, ih]
          · simp [getParam, Subs.find_set_ne subs k1 kq m02 hk]

theorem setParam_isOk :
    ∀ (m : Module) (p : QName) (v : Tensor),
      getParam m p ≠ none → ∃ m2, setParam m p v = .ok m2
  | .mk ps subs, [], v, hget => by simp [getParam] at hget
  | .mk ps subs, [k], v, hget => ⟨.mk (setOwn ps k v) subs, rfl⟩
  | .mk ps subs, k1 :: k2 :: rest, v, hget => by
    cases hf : Subs.find subs k1 with
    | none => simp [getParam, hf] at hget
    | some m0 =>
      have hget0 : getParam m0 (k2 :: rest) ≠ none := by
        simpa [getParam, hf] using hget
      obtain ⟨m02, hset⟩ := setParam_isOk m0 (k2 :: rest) v hget0
      exact ⟨.mk ps (Subs.set subs k1 m02), by simp [setParam, hf, hset]⟩

theorem setParam_id :
    ∀ (m : Module) (p : QName) (v : Tensor),
      getParam m p = some (some v) → setParam m p v = .ok m
  | .mk ps subs, [], v, hget => by simp [getParam] at hget
  | .mk ps subs, [k], v, hget => by
    simp only [getParam] at hget
    simp [setParam, setOwn_id ps k v hget]
  | .mk ps subs, k1 :: k2 :: rest, v, hget => by
    cases hf : Subs.find subs k1 with
    | none => simp [getParam, hf] at hget
    | some m0 =>
      have hget0 : getParam m0 (k2 :: rest) = some (some v) := by
        simpa [getParam, hf] using hget
      have ih := setParam_id m0 (k2 :: rest) v hget0
      simp [setParam, hf, ih, Subs.set_id subs k1 m0 hf]

theorem setParam_absorb :
    ∀ (m : Module) (p : QName) (v w : Tensor) (m1 : Module),
      setParam m p v = .ok m1 → setParam m1 p w = setParam m p w
  | .mk ps subs, [], v, w, m1, h => by simp [setParam] at h
  | .mk ps subs, [k], v, w, m1, h => by
    simp [setParam] at h
    subst h
    simp [setParam, setOwn_absorb]
  | .mk ps subs, k1 :: k2 :: rest, v, w, m1, h => by
    cases hf : Subs.find subs k1 with
    | none => simp [setParam, hf] at h
    | some m0 =>
      cases hset : setParam m0 (k2 :: rest) v with
      | error e => simp [setParam, hf, hset] at h
      | ok m02 =>
        simp [setParam, hf, hset] at h
        subst h
        have ih := setParam_absorb m0 (k2 :: rest) v w m02 hset
        cases hw : setParam m0 (k2 :: rest) w with
        | error e =>
          simp [setParam, Subs.find_set_self subs k1 m0 m02 hf, hf, ih, hw]
        | ok m03 =>
          simp [setParam, Subs.find_set_self subs k1 m0 m02 hf, hf, ih, hw,
            Subs.set_absorb]

theorem getParam_isSome_after (m : Module) (p q : QName) (v : Tensor) (m2 : Module)
    (hset : setParam m p v = .ok m2) (hq : getParam m q ≠ none) :
    getParam m2 q ≠ none := by
  by_cases hpq : q = p
  · subst hpq
    rw [getParam_setParam_self m q v m2 hset]
    simp
  · rw [getParam_setParam_ne m p q v m2 hset hpq]
    exact hq

theorem setParam_comm :
    ∀ (m : Module) (p q : QName) (v w : Tensor) (m1 m2 : Module),
      p ≠ q → getParam m p ≠ none → getParam m q ≠ none →
      setParam m p v = .ok m1 → setParam m q w = .ok m2 →
      ∃ m3, setParam m1 q w = .ok m3 ∧ setParam m2 p v = .ok m3
  | .mk ps subs, [], q, v, w, m1, m2, hne, hp, hq, h1, h2 => by
    simp [getParam] at hp
  | .mk ps subs, p, [], v, w, m1, m2, hne, hp, hq, h1, h2 => by
    simp [getParam] at hq
  | .mk ps subs, [kp], [kq], v, w, m1, m2, hne, hp, hq, h1, h2 => by
    have hk : kp ≠ kq := fun h => hne (by rw [h])
    simp only [getParam] at hp hq
    simp [setParam] at h1 h2
    subst h1
    subst h2
    exact ⟨.mk (setOwn (setOwn ps kp v) kq w) subs, by simp [setParam],
      by simp [setParam, setOwn_comm ps kp kq v w hk hp hq]⟩
  | .mk ps subs, [kp], kq :: q2 :: qrest, v, w, m1, m2, hne, hp, hq, h1, h2 => by
    simp [setParam] at h1
    subst h1
    cases hf : Subs.find subs kq with
    | none => simp [setParam, hf] at h2
    | some mq =>
      cases hsq : setParam mq (q2 :: qrest) w with
      | error e => simp [setParam, hf, hsq] at h2
      | ok mq2 =>
        simp [setParam, hf, hsq] at h2
        subst h2
        exact ⟨.mk (setOwn ps kp v) (Subs.set subs kq mq2),
          by simp [setParam, hf, hsq], by simp [setParam]⟩
  | .mk ps subs, kp :: p2 :: prest, [kq], v, w, m1, m2, hne, hp, hq, h1, h2 => by
    simp [setParam] at h2
    subst h2
    cases hf : Subs.find subs kp with
    | none => simp [setParam, hf] at h1
    | some mp =>
      cases hsp : setParam mp (p2 :: prest) v with
      | error e => simp [setParam, hf, hsp] at h1
      | ok mp2 =>
        simp [setParam, hf, hsp] at h1
        subst h1
        exact ⟨.mk (setOwn ps kq w) (Subs.set subs kp mp2),
          by simp [setParam], by simp [setParam, hf, hsp]⟩
  | .mk ps subs, kp :: p2 :: prest, kq :: q2 :: qrest, v, w, m1, m2, hne, hp, hq, h1, h2 => by
    cases hfp : Subs.find subs kp with
    | none => simp [setParam, hfp] at h1
    | some mp =>
      cases hsp : setParam mp (p2 :: prest) v with
      | error e => simp [setParam, hfp, hsp] at h1
      | ok mp2 =>
        simp [setParam, hfp, hsp] at h1
        subst h1
        cases hfq : Subs.find subs kq with
        | none => simp [setParam, hfq] at h2
        | some mq =>
          cases hsq : setParam mq (q2 :: qrest) w with
          | error e => simp [setParam, hfq, hsq] at h2
          | ok mq2 =>
            simp [setParam, hfq, hsq] at h2
            subst h2
            by_cases hk : kp = kq
            · subst hk
              rw [hfp] at hfq
              obtain rfl : mp = mq := by injection hfq
              have htail : (p2 :: prest) ≠ (q2 :: qrest) := fun h => hne (by rw [h])
              have hp0 : getParam mp (p2 :: prest) ≠ none := by
                simpa [getParam, hfp] using hp
              have hq0 : getParam mp (q2 :: qrest) ≠ none := by
                simpa [getParam, hfp] using hq
              obtain ⟨m3, h31, h32⟩ :=
                setParam_comm mp (p2 :: prest) (q2 :: qrest) v w mp2 mq2
                  htail hp0 hq0 hsp hsq
              refine ⟨.mk ps (Subs.set subs kp m3), ?_, ?_⟩
              · simp [setParam, Subs.find_set_self subs kp mp mp2 hfp, h31,
                  Subs.set_absorb]
              · simp [setParam, Subs.find_set_self subs kp mp mq2 hfp, h32,
                  Subs.set_absorb]
            · have hkq : kq ≠ kp := fun h => hk h.symm
              refine ⟨.mk ps (Subs.set (Subs.set subs kp mp2) kq mq2), ?_, ?_⟩
              · simp [setParam, Subs.find_set_ne subs kp kq mp2 hkq, hfq, hsq]
              · simp [setParam, Subs.find_set_ne subs kq kp mq2 hk, hfp, hsp,
                  Subs.set_comm subs kp kq mp2 mq2 hk]

/-! ## Snapshot lemmas: `namedParams` resolves, and its paths are distinct -/

mutual
theorem namedParams_ne_nil :
    ∀ (m : Module) (p : QName) (t : Tensor), (p, t) ∈ namedParams m → p ≠ []
  | .mk ps subs, p, t, hmem => by
    simp only [namedParams] at hmem
    rcases List.mem_append.mp hmem with h | h
    · obtain ⟨⟨k, v⟩, hkv, heq⟩ := List.mem_filterMap.mp h
      cases v with
      | none => simp at heq
      | some t2 =>
        simp only [Option.map_some'] at heq
        injection heq with heq2
        have hp : [k] = p := congrArg Prod.fst heq2
        rw [← hp]
        simp
    · exact namedParamsSubs_ne_nil subs p t h
theorem namedParamsSubs_ne_nil :
    ∀ (s : Subs) (p : QName) (t : Tensor), (p, t) ∈ namedParamsSubs s → p ≠ []
  | .nil, p, t, hmem => by simp [namedParamsSubs] at hmem
  | .cons k m rest, p, t, hmem => by
    simp only [namedParamsSubs] at hmem
    rcases List.mem_append.mp hmem with h | h
    · obtain ⟨⟨p0, t0⟩, hmem0, heq⟩ := List.mem_map.mp h
      have hp : k :: p0 = p := congrArg Prod.fst heq
      rw [← hp]
      simp
    · exact namedParamsSubs_ne_nil rest p t h
end

mutual
theorem getParam_namedParams :
    ∀ (m : Module), Module.wfB m = true →
      ∀ (p : QName) (t : Tensor), (p, t) ∈ namedParams m →
        getParam m p = some (some t)
  | .mk ps subs, hwf, p, t, hmem => by
    rw [Module.wfB, Bool.and_eq_true, Bool.and_eq_true] at hwf
    obtain ⟨⟨h1, h2⟩, h3⟩ := hwf
    rw [decide_eq_true_eq] at h1 h2
    simp only [namedParams] at hmem
    rcases List.mem_append.mp hmem with h | h
    · obtain ⟨⟨k, v⟩, hkv, heq⟩ := List.mem_filterMap.mp h
      cases v with
      | none => simp at heq
      | some t2 =>
        simp only [Option.map_some'] at heq
        injection heq with heq2
        have hp : p = [k] := (congrArg Prod.fst heq2).symm
        have ht : t = t2 := (congrArg Prod.snd heq2).symm
        rw [hp, ht]
        simp only [getParam]
        exact getOwn_of_mem ps k t2 h1 hkv
    · exact getParamSubs_namedParams subs h3 h2 p t h ps
theorem getParamSubs_namedParams :
    ∀ (s : Subs), Subs.wfB s = true → (Subs.keys s).Nodup →
      ∀ (p : QName) (t : Tensor), (p, t) ∈ namedParamsSubs s →
        ∀ ps : List (String × Option Tensor), getParam (.mk ps s) p = some (some t)
  | .nil, _, _, p, t, hmem, _ => by simp [namedParamsSubs] at hmem
  | .cons k m rest, hwf, hnd, p, t, hmem, ps => by
    rw [Subs.wfB, Bool.and_eq_true] at hwf
    obtain ⟨hwfm, hwfr⟩ := hwf
    simp only [namedParamsSubs] at hmem
    rcases List.mem_append.mp hmem with h | h
    · obtain ⟨⟨p0, t0⟩, hmem0, heq⟩ := List.mem_map.mp h
      have hp : p = k :: p0 := (congrArg Prod.fst heq).symm
      have ht : t = t0 := (congrArg Prod.snd heq).symm
      rw [hp, ht]
      have hne := namedParams_ne_nil m p0 t0 hmem0
      cases p0 with
      | nil => exact absurd rfl hne
      | cons q0 qrest =>
        have hg := getParam_namedParams m hwfm (q0 :: qrest) t0 hmem0
        simp [getParam, Subs.find, hg]
    · have hndr : (Subs.keys rest).Nodup := by
        simp only [Subs.keys, List.nodup_cons] at hnd
        exact hnd.2
      have hknotin : k ∉ Subs.keys rest := by
        simp only [Subs.keys, List.nodup_cons] at hnd
        exact hnd.1
      have ih := getParamSubs_namedParams rest hwfr hndr p t h ps
      cases p with
      | nil => simp [getParam] at ih
      | cons k1 p2 =>
        cases p2 with
        | nil => simpa [getParam] using ih
        | cons q2 pr =>
          cases hf : Subs.find rest k1 with
          | none => simp [getParam, hf] at ih
          | some mfound =>
            have hk1 : k1 ∈ Subs.keys rest := Subs.find_mem_keys rest k1 mfound hf
            have hkk1 : ¬ k = k1 := fun hh => hknotin (hh ▸ hk1)
            simp only [getParam, hf] at ih
            simp [getParam, Subs.find, hkk1, hf, ih]
end

theorem ownPaths_eq (ps : List (String × Option Tensor)) :
    ((ps.filterMap (fun kv => kv.2.map (fun t => ([kv.1], t)))).map Prod.fst)
      = ps.filterMap (fun kv => kv.2.map (fun _ => [kv.1])) := by
  induction ps with
  | nil => rfl
  | cons kv rest ih =>
    obtain ⟨k, v⟩ := kv
    cases v <;> simp [List.filterMap_cons, ih]

theorem mem_ownNames (ps : List (String × Option Tensor)) (q : QName) :
    q ∈ ps.filterMap (fun kv => kv.2.map (fun _ => [kv.1])) →
      ∃ k, q = [k] ∧ k ∈ ps.map Prod.fst := by
  intro h
  obtain ⟨⟨k, v⟩, hkv, heq⟩ := List.mem_filterMap.mp h
  cases v with
  | none => simp at heq
  | some t =>
    simp only [Option.map_some'] at heq
    injection heq with heq2
    exact ⟨k, heq2.symm, List.mem_map_of_mem Prod.fst hkv⟩

theorem ownNames_nodup :
    ∀ ps : List (String × Option Tensor), (ps.map Prod.fst).Nodup →
      (ps.filterMap (fun kv => kv.2.map (fun _ => [kv.1]))).Nodup
  | [], _ => by simp
  | (k, v) :: rest, hnd => by
    simp only [List.map_cons, List.nodup_cons] at hnd
    cases v with
    | none => simpa [List.filterMap_cons] using ownNames_nodup rest hnd.2
    | some t =>
      simp only [List.filterMap_cons, Option.map_some']
      rw [List.nodup_cons]
      refine ⟨?_, ownNames_nodup rest hnd.2⟩
      intro hmem
      obtain ⟨k2, heq, hk2⟩ := mem_ownNames rest [k] hmem
      obtain rfl : k = k2 := by
        injection heq with h1 _
      exact hnd.1 hk2

theorem subsPaths_shape :
    ∀ (s : Subs) (p : QName) (t : Tensor), (p, t) ∈ namedParamsSubs s →
      ∃ k p2, p = k :: p2 ∧ p2 ≠ [] ∧ k ∈ Subs.keys s
  | .nil, p, t, hmem => by simp [namedParamsSubs] at hmem
  | .cons k m rest, p, t, hmem => by
    simp only [namedParamsSubs] at hmem
    rcases List.mem_append.mp hmem with h | h
    · obtain ⟨⟨p0, t0⟩, hmem0, heq⟩ := List.mem_map.mp h
      simp only [Prod.mk.injEq] at heq
      obtain ⟨rfl, rfl⟩ := heq
      exact ⟨k, p0, rfl, namedParams_ne_nil m p0 t0 hmem0, by simp [Subs.keys]⟩
    · obtain ⟨k2, p2, hp, hp2, hk2⟩ := subsPaths_shape rest p t h
      exact ⟨k2, p2, hp, hp2, by simp [Subs.keys, hk2]⟩

mutual
theorem namedParams_paths_nodup :
    ∀ (m : Module), Module.wfB m = true → ((namedParams m).map Prod.fst).Nodup
  | .mk ps subs, hwf => by
    rw [Module.wfB, Bool.and_eq_true, Bool.and_eq_true] at hwf
    obtain ⟨⟨h1, h2⟩, h3⟩ := hwf
    rw [decide_eq_true_eq] at h1 h2
    simp only [namedParams, List.map_append]
    refine List.Nodup.append ?_ (namedParamsSubs_paths_nodup subs h3 h2) ?_
    · rw [ownPaths_eq]
      exact ownNames_nodup ps h1
    · intro q hq1 hq2
      rw [ownPaths_eq] at hq1
      obtain ⟨k, rfl, _⟩ := mem_ownNames ps q hq1
      obtain ⟨⟨p0, t0⟩, hmem0, heq⟩ := List.mem_map.mp hq2
      obtain ⟨k2, p2, hp, hp2, _⟩ := subsPaths_shape subs p0 t0 hmem0
      have hp0 : p0 = [k] := heq
      rw [hp0] at hp
      injection hp with hh1 hh2
      exact hp2 hh2.symm
theorem namedParamsSubs_paths_nodup :
    ∀ (s : Subs), Subs.wfB s = true → (Subs.keys s).Nodup →
      ((namedParamsSubs s).map Prod.fst).Nodup
  | .nil, _, _ => by simp [namedParamsSubs]
  | .cons k m rest, hwf, hnd => by
    rw [Subs.wfB, Bool.and_eq_true] at hwf
    obtain ⟨hwfm, hwfr⟩ := hwf
    simp only [Subs.keys, List.nodup_cons] at hnd
    have hmap : List.map Prod.fst
          (List.map (fun pt : QName × Tensor => (k :: pt.1, pt.2)) (namedParams m))
        = List.map (fun q => k :: q) (List.map Prod.fst (namedParams m)) := by
      rw [List.map_map, List.map_map]
      rfl
    simp only [namedParamsSubs, List.map_append]
    refine List.Nodup.append ?_ (namedParamsSubs_paths_nodup rest hwfr hnd.2) ?_
    · rw [hmap]
      have hinj : Function.Injective (fun q : QName => k :: q) := by
        intro a b hab
        injection hab
      exact (namedParams_paths_nodup m hwfm).map hinj
    · intro q hq1 hq2
      rw [hmap] at hq1
      obtain ⟨q0, hq0, rfl⟩ := List.mem_map.mp hq1
      obtain ⟨⟨p0, t0⟩, hmem0, heq⟩ := List.mem_map.mp hq2
      obtain ⟨k2, p2, hp, hp2, hk2⟩ := subsPaths_shape rest p0 t0 hmem0
      have hp0 : p0 = k :: q0 := heq
      rw [hp0] at hp
      injection hp with hh1 hh2
      exact hnd.1 (hh1 ▸ hk2)
end

/-! ## Fold-level lemmas for the update loop -/

theorem updateLoop_cons_ok (p : QName) (t : Tensor) (S : List (QName × Tensor))
    (lr : ℚ) (m m2 : Module) (h : updateLoop ((p, t) :: S) lr m = .ok m2) :
    ∃ mmid, setParam m p (stepVal lr t) = .ok mmid ∧ updateLoop S lr mmid = .ok m2 := by
  by_cases hlr : lr > 0
  · cases hg : t.grad with
    | none => simp [updateLoop, hlr, hg] at h
    | some g =>
      cases hset : setParam m p { val := t.val - lr * g, grad := none } with
      | error e => simp [updateLoop, hlr, hg, hset] at h
      | ok mmid =>
        have hsv : stepVal lr t = { val := t.val - lr * g, grad := none } := by
          simp [stepVal, hlr, hg]
        refine ⟨mmid, ?_, ?_⟩
        · rw [hsv]; exact hset
        · simpa [updateLoop, hlr, hg, hset] using h
  · cases hset : setParam m p t with
    | error e => simp [updateLoop, hlr, hset] at h
    | ok mmid =>
      have hsv : stepVal lr t = t := by simp [stepVal, hlr]
      refine ⟨mmid, ?_, ?_⟩
      · rw [hsv]; exact hset
      · simpa [updateLoop, hlr, hset] using h

theorem updateLoop_frame :
    ∀ (S : List (QName × Tensor)) (lr : ℚ) (m m2 : Module) (q : QName),
      updateLoop S lr m = .ok m2 → q ∉ S.map Prod.fst → getParam m2 q = getParam m q
  | [], lr, m, m2, q, h, hq => by
    simp only [updateLoop, Except.ok.injEq] at h
    rw [← h]
  | (p, t) :: S, lr, m, m2, q, h, hq => by
    obtain ⟨mmid, hset, hrest⟩ := updateLoop_cons_ok p t S lr m m2 h
    simp only [List.map_cons, List.mem_cons, not_or] at hq
    rw [updateLoop_frame S lr mmid m2 q hrest hq.2,
      getParam_setParam_ne m p q (stepVal lr t) mmid hset hq.1]

theorem updateLoop_getParam :
    ∀ (S : List (QName × Tensor)) (lr : ℚ) (m m2 : Module) (p : QName) (t : Tensor),
      (S.map Prod.fst).Nodup → (p, t) ∈ S → updateLoop S lr m = .ok m2 →
      getParam m2 p = some (some (stepVal lr t))
  | [], lr, m, m2, p, t, hnd, hmem, h => by simp at hmem
  | (q, w) :: S, lr, m, m2, p, t, hnd, hmem, h => by
    obtain ⟨mmid, hset, hrest⟩ := updateLoop_cons_ok q w S lr m m2 h
    simp only [List.map_cons, List.nodup_cons] at hnd
    rcases List.mem_cons.mp hmem with heq | hmem2
    · have hp : p = q := congrArg Prod.fst heq
      have ht : t = w := congrArg Prod.snd heq
      rw [hp, ht]
      rw [updateLoop_frame S lr mmid m2 q hrest hnd.1]
      exact getParam_setParam_self m q (stepVal lr w) mmid hset
    · exact updateLoop_getParam S lr mmid m2 p t hnd.2 hmem2 hrest

theorem updateLoop_writeAll :
    ∀ (S : List (QName × Tensor)) (m : Module), updateLoop S 0 m = writeAll S m
  | [], m => rfl
  | (p, t) :: S, m => by
    have h0 : ¬ (0 : ℚ) > 0 := lt_irrefl 0
    cases hset : setParam m p t with
    | error e => simp [updateLoop, writeAll, h0, hset]
    | ok mmid => simp [updateLoop, writeAll, h0, hset, updateLoop_writeAll S mmid]

theorem writeAll_id :
    ∀ (S : List (QName × Tensor)) (m : Module),
      (∀ pt ∈ S, getParam m pt.1 = some (some pt.2)) → writeAll S m = .ok m
  | [], m, h => rfl
  | (p, t) :: S, m, h => by
    have h0 : getParam m p = some (some t) := h (p, t) (List.Mem.head _)
    have hset := setParam_id m p t h0
    simp only [writeAll, hset]
    exact writeAll_id S m (fun pt hpt => h pt (List.Mem.tail _ hpt))

theorem writeAll_setParam :
    ∀ (S : List (QName × Tensor)) (m m1 : Module) (p : QName) (v : Tensor),
      (∀ pt ∈ S, getParam m pt.1 ≠ none) → p ∈ S.map Prod.fst →
      setParam m p v = .ok m1 → writeAll S m1 = writeAll S m
  | [], m, m1, p, v, hex, hmem, hset => by simp at hmem
  | (q, w) :: S, m, m1, p, v, hex, hmem, hset => by
    have hqex : getParam m q ≠ none := hex (q, w) (List.Mem.head _)
    by_cases hpq : p = q
    · subst hpq
      have habs := setParam_absorb m p v w m1 hset
      cases hw : setParam m p w with
      | error e => simp [writeAll, habs, hw]
      | ok mmid => simp [writeAll, habs, hw]
    · have hpex : getParam m p ≠ none := by
        simp only [List.map_cons, List.mem_cons] at hmem
        rcases hmem with h | h
        · exact absurd h hpq
        · obtain ⟨⟨p2, t2⟩, hmem2, heq⟩ := List.mem_map.mp h
          have hp2 : p2 = p := heq
          exact hp2 ▸ hex (p2, t2) (List.Mem.tail _ hmem2)
      obtain ⟨mq, hq⟩ := setParam_isOk m q w hqex
      obtain ⟨m3, h31, h32⟩ := setParam_comm m p q v w m1 mq hpq hpex hqex hset hq
      have hexq : ∀ pt ∈ S, getParam mq pt.1 ≠ none := fun pt hpt =>
        getParam_isSome_after m q pt.1 w mq hq (hex pt (List.Mem.tail _ hpt))
      have hprest : p ∈ S.map Prod.fst := by
        simp only [List.map_cons, List.mem_cons] at hmem
        rcases hmem with h | h
        · exact absurd h hpq
        · exact h
      have ih := writeAll_setParam S mq m3 p v hexq hprest h32
      simp [writeAll, hq, h31, ih]

theorem updateLoop_keep :
    ∀ (S2 S : List (QName × Tensor)) (lr : ℚ) (mt m m2 : Module),
      (∀ pt2 ∈ S2, pt2.1 ∈ S.map Prod.fst) →
      (∀ pt ∈ S, getParam m pt.1 ≠ none) →
      writeAll S m = .ok mt →
      updateLoop S2 lr m = .ok m2 →
      (∀ pt ∈ S, getParam m2 pt.1 ≠ none) ∧ writeAll S m2 = .ok mt
  | [], S, lr, mt, m, m2, hsub, hex, hwa, hupd => by
    simp only [updateLoop, Except.ok.injEq] at hupd
    rw [← hupd]
    exact ⟨hex, hwa⟩
  | (p, t) :: S2, S, lr, mt, m, m2, hsub, hex, hwa, hupd => by
    obtain ⟨mmid, hset, hrest⟩ := updateLoop_cons_ok p t S2 lr m m2 hupd
    have hpS : p ∈ S.map Prod.fst := hsub (p, t) (List.Mem.head _)
    have hex2 : ∀ pt ∈ S, getParam mmid pt.1 ≠ none := fun pt hpt =>
      getParam_isSome_after m p pt.1 (stepVal lr t) mmid hset (hex pt hpt)
    have hwa2 : writeAll S mmid = .ok mt := by
      rw [writeAll_setParam S m mmid p (stepVal lr t) hex hpS hset]
      exact hwa
    exact updateLoop_keep S2 S lr mt mmid m2
      (fun pt2 h => hsub pt2 (List.Mem.tail _ h)) hex2 hwa2 hrest

theorem runUpdates_keep :
    ∀ (lrs : List ℚ) (S : List (QName × Tensor)) (mt m m2 : Module),
      (∀ pt ∈ S, getParam m pt.1 ≠ none) →
      writeAll S m = .ok mt →
      runUpdates ⟨S⟩ lrs m = .ok m2 →
      (∀ pt ∈ S, getParam m2 pt.1 ≠ none) ∧ writeAll S m2 = .ok mt
  | [], S, mt, m, m2, hex, hwa, hrun => by
    simp only [runUpdates, Except.ok.injEq] at hrun
    rw [← hrun]
    exact ⟨hex, hwa⟩
  | lr :: lrs, S, mt, m, m2, hex, hwa, hrun => by
    cases hupd : Hot_Plug.update ⟨S⟩ lr m with
    | error e => simp [runUpdates, hupd] at hrun
    | ok mmid =>
      simp only [runUpdates, hupd] at hrun
      have hupd2 : updateLoop S lr m = .ok mmid := hupd
      have hkeep := updateLoop_keep S S lr mt m mmid
        (fun pt2 h => List.mem_map_of_mem Prod.fst h) hex hwa hupd2
      exact runUpdates_keep lrs S mt mmid m2 hkeep.1 hkeep.2 hrun

/-! ## Claim C1 -/

/-- C1: for every well-formed model and every learning-rate sequence,
`restore()` after any finite sequence of successful `update(lr)` calls returns
the tree to exactly the construction-time state (each captured slot is rebound
to the snapshot tensor, bit for bit), because `update` always recomputes from
the immutable snapshot taken at construction and never reads the
currently-installed values. -/
theorem hot_plug_restore_after_updates (m0 m2 : Module) (lrs : List ℚ)
    (hwf : Module.wfB m0 = true)
    (hrun : runUpdates (Hot_Plug.init m0) lrs m0 = .ok m2) :
    (Hot_Plug.init m0).restore m2 = .ok m0 := by
  have hN := getParam_namedParams m0 hwf
  have hex : ∀ pt ∈ namedParams m0, getParam m0 pt.1 ≠ none := by
    intro pt hpt
    rw [hN pt.1 pt.2 hpt]
    simp
  have hwa : writeAll (namedParams m0) m0 = .ok m0 :=
    writeAll_id _ m0 (fun pt hpt => hN pt.1 pt.2 hpt)
  have hkeep := runUpdates_keep lrs (namedParams m0) m0 m0 m2 hex hwa hrun
  show updateLoop (namedParams m0) 0 m2 = .ok m0
  rw [updateLoop_writeAll]
  exact hkeep.2

/-- C1 witness. -/
theorem hot_plug_restore_after_updates_witness :
    (Hot_Plug.init exG).restore exG = .ok exG :=
  hot_plug_restore_after_updates exG exG [0] rfl rfl

/-! ## Claim C4 -/

/-- C4 counterexample: with `lr = -1` on a slot of value 2 and gradient 3,
`update` rebinds the slot to the original value 2 (the `lr > 0` test fails and
the restore path runs), not to `original - lr * grad = 5`: the claimed formula
is false for negative learning rates. -/
theorem hot_plug_update_negative_lr_cex :
    (Hot_Plug.init exG).update (-1) exG = .ok exG
    ∧ paramVal exG ["w"] = some 2
    ∧ ((2 : ℚ) - (-1) * 3 ≠ 2) :=
  ⟨rfl, rfl, by norm_num⟩

/-- C4 amended: for every learning rate `lr ≥ 0` and every captured leaf of a
well-formed model, a successful `update(lr)` rebinds the leaf's slot to the
value `original - lr * grad` computed from the construction-time snapshot
(for `lr > 0` as a fresh tensor, for `lr = 0` as the snapshot tensor itself,
whose value equals `original - 0 * grad`); for `lr < 0` the source instead
rebinds the original value. -/
theorem hot_plug_update_formula (m0 m m2 : Module) (lr g : ℚ) (p : QName)
    (t : Tensor) (hwf : Module.wfB m0 = true) (hlr : 0 ≤ lr)
    (hmem : (p, t) ∈ (Hot_Plug.init m0).params) (hg : t.grad = some g)
    (hupd : (Hot_Plug.init m0).update lr m = .ok m2) :
    paramVal m2 p = some (t.val - lr * g) := by
  have hnd := namedParams_paths_nodup m0 hwf
  have hlast := updateLoop_getParam (namedParams m0) lr m m2 p t hnd hmem hupd
  simp only [paramVal, hlast]
  by_cases h : lr > 0
  · simp [stepVal, h, hg]
  · have hz : lr = 0 := le_antisymm (not_lt.mp h) hlr
    subst hz
    simp [stepVal]

/-- C4 amended, witness. -/
theorem hot_plug_update_formula_witness :
    paramVal exG ["w"] = some (2 - 0 * 3) :=
  hot_plug_update_formula exG exG exG 0 3 ["w"] ⟨2, some 3⟩ rfl (le_refl 0)
    (List.Mem.head _) rfl rfl

/-! ## Claim C6 -/

/-- C6: `restore()` is the very call `update(0)` (so they produce identical
tree states from any starting state), and `update(0)` on a well-formed model's
helper is idempotent: applying it twice yields the same tree as applying it
once. -/
theorem hot_plug_restore_update_zero :
    (∀ (hp : Hot_Plug) (m : Module), hp.restore m = hp.update 0 m)
    ∧ (∀ (m0 m m2 : Module), Module.wfB m0 = true →
        (Hot_Plug.init m0).update 0 m = .ok m2 →
        (Hot_Plug.init m0).update 0 m2 = .ok m2) := by
  refine ⟨fun hp m => rfl, fun m0 m m2 hwf hupd => ?_⟩
  have hnd := namedParams_paths_nodup m0 hwf
  have hvals : ∀ pt ∈ namedParams m0, getParam m2 pt.1 = some (some pt.2) := by
    intro pt hpt
    have hlw := updateLoop_getParam (namedParams m0) 0 m m2 pt.1 pt.2 hnd hpt hupd
    rw [hlw]
    have hsv : stepVal 0 pt.2 = pt.2 := by simp [stepVal]
    rw [hsv]
  show updateLoop (namedParams m0) 0 m2 = .ok m2
  rw [updateLoop_writeAll]
  exact writeAll_id _ m2 hvals

/-- C6 witness. -/
theorem hot_plug_restore_update_zero_witness :
    (Hot_Plug.init exG).update 0 exG = .ok exG :=
  hot_plug_restore_update_zero.2 exG exG exG rfl rfl

end Utils
